import Mathlib

/-
  Verification of the licence-detector tool (main.go) against its
  natural-language specification.

  The development shallowly embeds the reachable logic of main.go:
  the licence-file-name regex built by buildLicenceRegex, the directory
  walk of findLicenceFile (godirwalk preorder walk with SkipDir and a
  stop-walk sentinel), detectLicences, parseDependencies, and
  LicenceText.  File systems are modelled as explicit trees, the JSON
  decoder of parseDependencies as a list of decode events, and Go
  panics as the error side of Except.
-/

set_option maxHeartbeats 1000000

namespace LicenceDetector

/-! ## The licence-file-name pattern

The Go source builds the anchored regex

  ^(?i:(li[cs]en[cs]es?|legal|copy(left|right|ing)|unlicense|l?gpl([-_ v]?)(\d\.?\d)?|bsd|mit|apache)(\.(txt|md|rst))?)$

and matches it against the base name of each directory entry.  We embed
it as a Boolean matcher on the lowercased character list of the name
(the (?i:...) flag is ASCII case folding here, as every literal in the
pattern is ASCII).  Finite alternatives are expanded to the exact
strings they denote; the GPL alternative keeps its structure. -/

/-- Characters of the regex character class [-_ v] that may separate gpl from a version. -/
def sepChar (c : Char) : Bool :=
  c == '-' || c == '_' || c == ' ' || c == 'v'

/-- The optional version group (\d\.?\d)? of the GPL alternative: empty, two digits, or digit dot digit. -/
def verPart : List Char → Bool
  | [] => true
  | [d1, d2] => d1.isDigit && d2.isDigit
  | [d1, c, d2] => d1.isDigit && c == '.' && d2.isDigit
  | _ => false

/-- The tail allowed after gpl: an optional separator from [-_ v], then an optional version. -/
def gplTail (l : List Char) : Bool :=
  verPart l ||
    (match l with
     | c :: rest => sepChar c && verPart rest
     | [] => false)

/-- The alternative l?gpl([-_ v]?)(\d\.?\d)? of the licence regex, on lowercased characters. -/
def gplMatch : List Char → Bool
  | 'g' :: 'p' :: 'l' :: rest => gplTail rest
  | 'l' :: 'g' :: 'p' :: 'l' :: rest => gplTail rest
  | _ => false

/-- The four stems denoted by li[cs]en[cs]e: both choices of c or s in each of the two slots. -/
def licenStems : List String :=
  ["license", "licence", "lisense", "lisence"]

/-- The alternative li[cs]en[cs]es? of the licence regex: one of the four stems, with an optional plural s. -/
def licenMatch (l : List Char) : Bool :=
  licenStems.any (fun stem => l == stem.data || l == stem.data ++ ['s'])

/-- The alternative copy(left|right|ing) of the licence regex. -/
def copyMatch (l : List Char) : Bool :=
  ["left", "right", "ing"].any (fun t => l == "copy".data ++ t.data)

/-- The full name alternation of the licence regex of buildLicenceRegex, in source order:
li[cs]en[cs]es?, legal, copy(left|right|ing), unlicense, the GPL family, bsd, mit, apache. -/
def codeNameMatch (l : List Char) : Bool :=
  licenMatch l || l == "legal".data || copyMatch l || l == "unlicense".data ||
    gplMatch l || l == "bsd".data || l == "mit".data || l == "apache".data

/-- The optional extension group (\.(txt|md|rst))? wrapped around a name matcher:
either the whole name matches, or it ends in one of the three dotted extensions
and the part before the extension matches. -/
def withExt (nm : List Char → Bool) (l : List Char) : Bool :=
  nm l ||
    ["txt", "md", "rst"].any (fun e =>
      List.isSuffixOf ('.' :: e.data) l && nm (l.take (l.length - (e.data.length + 1))))

/-- Lowercased character list of a string, modelling the (?i:...) ASCII case folding. -/
def lowerData (s : String) : List Char :=
  s.data.map Char.toLower

/-- The matcher of the regex built by buildLicenceRegex, applied to a base name
as licenceRegex.MatchString does in findLicenceFile. -/
def licenceRegexMatch (s : String) : Bool :=
  withExt codeNameMatch (lowerData s)

/-- The base names enumerated by the specification sentence: license(s), licence(s),
legal, copy(left|right|ing), unlicense, bsd, mit, apache, with the GPL family kept
as a pattern.  This definition follows the words of the spec (for comparison with
the matcher embedded from the source), expanding its finite alternatives. -/
def specWords : List String :=
  ["license", "licenses", "licence", "licences", "legal",
   "copyleft", "copyright", "copying", "unlicense", "bsd", "mit", "apache"]

/-- Name matcher following the words of the spec: one of the enumerated words,
or the GPL-family pattern. -/
def specNameMatch (l : List Char) : Bool :=
  specWords.any (fun w => l == w.data) || gplMatch l

/-- Candidate predicate following the words of the spec: a spec-listed name,
optionally followed by one of the three extensions, case-insensitively. -/
def specCandidate (s : String) : Bool :=
  withExt specNameMatch (lowerData s)

/-- The amended word list: as the spec, but covering all four li[cs]en[cs]e
spellings of the source regex, with and without the plural s. -/
def amendedWords : List String :=
  ["license", "licenses", "licence", "licences",
   "lisense", "lisenses", "lisence", "lisences", "legal",
   "copyleft", "copyright", "copying", "unlicense", "bsd", "mit", "apache"]

/-- Name matcher of the amended claim: one of the amended words, or the GPL-family pattern. -/
def amendedNameMatch (l : List Char) : Bool :=
  amendedWords.any (fun w => l == w.data) || gplMatch l

/-- Candidate predicate of the amended claim. -/
def amendedCandidate (s : String) : Bool :=
  withExt amendedNameMatch (lowerData s)

/-! ## The directory walk of findLicenceFile

godirwalk.Walk visits the root and then descends in preorder.  The
callback of findLicenceFile tests each entry base name against the
regex; on a matching directory it returns filepath.SkipDir (do not
descend, continue with the walk), on a matching file it stores the path
and returns the stop-walk sentinel, which halts the walk.  An I/O error
while reading a directory halts the walk with that error.  We model a
file system as an explicit tree (walk order abstracted as the child
list order, matching the Unsorted option), with a constructor for a
directory whose contents cannot be read. -/

/-- A file-system tree: a plain file, a readable directory with its entries,
or a directory whose contents cannot be read (an I/O failure when descending). -/
inductive FSNode where
  | file (name : String)
  | dir (name : String) (children : List FSNode)
  | unreadableDir (name : String) (msg : String)

/-- Outcome of a godirwalk walk over a list of entries: a matching file was
found and the walk stopped, an I/O error halted the walk, or the walk ran
to completion. -/
inductive WalkOutcome where
  | found (path : String)
  | ioError (msg : String)
  | done
deriving DecidableEq

/-- Path concatenation as the walk produces it (osPathName of the callback). -/
def joinPath (p n : String) : String :=
  if p = "" then n else p ++ "/" ++ n

/-- Preorder walk of a list of sibling entries under path prefix p, with the
callback of findLicenceFile: a matching file stops the walk with its path, a
matching directory is skipped (not descended into) and the walk continues, a
non-matching directory is descended into, and an unreadable non-matching
directory halts the walk with an I/O error. -/
def walkList (p : String) : List FSNode → WalkOutcome
  | [] => .done
  | FSNode.file n :: rest =>
    if licenceRegexMatch n then .found (joinPath p n) else walkList p rest
  | FSNode.unreadableDir n msg :: rest =>
    if licenceRegexMatch n then walkList p rest else .ioError msg
  | FSNode.dir n children :: rest =>
    if licenceRegexMatch n then walkList p rest
    else
      match walkList (joinPath p n) children with
      | .done => walkList p rest
      | r => r

/-- Errors of findLicenceFile: the sentinel errLicenceNotFound, or any other
error (an I/O failure surfaced by the walk). -/
inductive LicErr where
  | notFound
  | other (msg : String)
deriving DecidableEq

/-- findLicenceFile of main.go: walk the root; if the callback stopped the walk
return the stored path with no error, if the walk failed otherwise return that
error, and if the walk completed without a match return errLicenceNotFound. -/
def findLicenceFile (root : FSNode) : Except LicErr String :=
  match walkList "" [root] with
  | .found p => .ok p
  | .ioError m => .error (.other m)
  | .done => .error .notFound

/-- A tree is clean when no entry in it has a base name matching the licence
regex and every directory in it is readable: a walk of it completes finding
nothing. -/
def cleanList : List FSNode → Bool
  | [] => true
  | FSNode.file n :: rest => !licenceRegexMatch n && cleanList rest
  | FSNode.unreadableDir _ _ :: _ => false
  | FSNode.dir n children :: rest =>
    !licenceRegexMatch n && cleanList children && cleanList rest

/-! ## The data model of main.go -/

/-- A module record as decoded by parseDependencies from the go list -m -json
stream.  The opaque Time pointer is kept as an optional string. -/
structure Module where
  Path : String
  Version : String
  Main : Bool
  Time : Option String
  Indirect : Bool
  Dir : String
deriving DecidableEq

/-- LicenceInfo of main.go: an embedded Module plus the detected licence file
path and the recorded detection error (a Go nil error is none). -/
structure LicenceInfo extends Module where
  LicenceFile : String
  Error : Option LicErr
deriving DecidableEq

/-- The Dependencies pair of direct and indirect dependency records. -/
structure Dependencies where
  Direct : List LicenceInfo
  Indirect : List LicenceInfo
deriving DecidableEq

/-- The message of each error value, as the Go Error method renders it. -/
def errMessage : LicErr → String
  | .notFound => "failed to detect licence"
  | .other m => m

/-! ## detectLicences

detectLicences iterates over the Direct list and then the Indirect list,
assigning to each record the result of findLicenceFile on its Dir.  When
findLicenceFile fails with anything other than errLicenceNotFound, the
function panics, aborting the run; the panic is modelled as the error
side of Except, carrying the panic message.  The file system is passed
as a map from a directory path to its tree. -/

/-- One pass of detectLicences over a list of records. -/
def detectList (fs : String → FSNode) : List LicenceInfo → Except String (List LicenceInfo)
  | [] => .ok []
  | d :: ds =>
    match findLicenceFile (fs d.Dir) with
    | .ok p =>
      (detectList fs ds).map (fun rest => { d with LicenceFile := p, Error := none } :: rest)
    | .error e =>
      if e = LicErr.notFound then
        (detectList fs ds).map (fun rest => { d with LicenceFile := "", Error := some e } :: rest)
      else
        .error ("unexpected error while processing " ++ d.Path ++ ": " ++ errMessage e)

/-- detectLicences of main.go: process the Direct list, then the Indirect list. -/
def detectLicences (fs : String → FSNode) (deps : Dependencies) : Except String Dependencies :=
  match detectList fs deps.Direct with
  | .error m => .error m
  | .ok dir =>
    match detectList fs deps.Indirect with
    | .error m => .error m
    | .ok ind => .ok ⟨dir, ind⟩

/-! ## parseDependencies

The JSON decoder is modelled as a list of decode events: each event is
either a decoded Module or a decode error message; the end of the list
is io.EOF.  The Go loop exits only through its two return statements
(on io.EOF with a nil error, or on any other decode error), so the two
sort.Slice calls after the loop are unreachable and are not part of the
reachable semantics embedded here. -/

/-- A fresh record for a kept module: LicenceInfo{Module: mod}. -/
def mkInfo (m : Module) : LicenceInfo :=
  { toModule := m, LicenceFile := "", Error := none }

/-- The decode loop of parseDependencies, carrying the accumulated lists. -/
def parseLoop (includeIndirect : Bool) (deps : Dependencies) :
    List (Except String Module) → Except String Dependencies
  | [] => .ok deps
  | .error e :: _ => .error ("failed to parse dependencies: " ++ e)
  | .ok mod :: rest =>
    if !mod.Main && mod.Dir != "" then
      if mod.Indirect then
        if includeIndirect then
          parseLoop includeIndirect { deps with Indirect := deps.Indirect ++ [mkInfo mod] } rest
        else
          parseLoop includeIndirect deps rest
      else
        parseLoop includeIndirect { deps with Direct := deps.Direct ++ [mkInfo mod] } rest
    else
      parseLoop includeIndirect deps rest

/-- parseDependencies of main.go, starting from empty lists. -/
def parseDependencies (events : List (Except String Module)) (includeIndirect : Bool) :
    Except String Dependencies :=
  parseLoop includeIndirect ⟨[], []⟩ events

/-- The condition under which a decoded module lands in the Direct list. -/
def keepDirect (m : Module) : Bool :=
  !m.Main && m.Dir != "" && !m.Indirect

/-- The condition under which a decoded module lands in the Indirect list. -/
def keepIndirect (includeIndirect : Bool) (m : Module) : Bool :=
  !m.Main && m.Dir != "" && m.Indirect && includeIndirect

/-! ## LicenceText

LicenceText renders the licence text of one record for the template: if
an error was recorded it returns the message of that error and touches
no file; otherwise it emits a header naming the licence file, with the
module cache path replaced by a placeholder, followed by the contents of
the file, and panics when the file cannot be opened or read.  The file
system is a map from path to a read result. -/

/-- Result of opening and reading a file: its contents, a failure to open,
or a failure while reading. -/
inductive FileReadResult where
  | content (text : String)
  | openFail
  | readFail
deriving DecidableEq

/-- LicenceText of main.go.  The reader argument models os.Open plus io.Copy;
cache is the goModCache path.  Panics are the error side of Except. -/
def LicenceText (reader : String → FileReadResult) (cache : String) (li : LicenceInfo) :
    Except String String :=
  match li.Error with
  | some e => .ok (errMessage e)
  | none =>
    let header := "Contents of probable licence file " ++
      (li.LicenceFile.replace cache "$GOMODCACHE") ++ ":\n\n"
    match reader li.LicenceFile with
    | .content text => .ok (header ++ text)
    | .openFail => .error ("failed to open licence file " ++ li.LicenceFile)
    | .readFail => .error ("failed to read licence file " ++ li.LicenceFile)

/-! ## Best-licence selection

Modelled from the spec: the best-licence selection heuristic is not part
of the sources under verification (only the spec describes it, as the
choice among candidate licence matches by confidence score).  Following
the words of the spec: given a mapping from licence identifier to a
confidence score and a set of matching file paths, iterate over it,
select the identifier with the strictly highest confidence, keep the
first encountered on ties, and associate with the selected identifier
one file from its match set (the first encountered). -/

/-- A candidate licence match: identifier, confidence score, matching files. -/
structure LicenceMatch where
  ident : String
  confidence : ℚ
  files : List String
deriving DecidableEq

/-- Modelled from the spec: running best of the iteration, replacing the
current best only on a strictly higher confidence, so the first encountered
of equally confident candidates is kept. -/
def bestAux (b : LicenceMatch) : List LicenceMatch → LicenceMatch
  | [] => b
  | x :: xs => bestAux (if b.confidence < x.confidence then x else b) xs

/-- Modelled from the spec: the selected match of a candidate list, none when
the list is empty. -/
def bestLicence : List LicenceMatch → Option LicenceMatch
  | [] => none
  | m :: rest => some (bestAux m rest)

/-- Modelled from the spec: the selected identifier together with the first
file of its match set. -/
def bestLicenceFile (ms : List LicenceMatch) : Option (String × Option String) :=
  (bestLicence ms).map (fun m => (m.ident, m.files.head?))

end LicenceDetector

namespace LicenceDetector

/-! ## Theorems for claim C2 -/

/-- Helper for claim C2: the name alternation embedded from the source regex
agrees everywhere with the amended word list. -/
theorem code_eq_amended (l : List Char) : codeNameMatch l = amendedNameMatch l := by
  have h1 : ("license".data ++ ['s'] : List Char) = "licenses".data := by decide
  have h2 : ("licence".data ++ ['s'] : List Char) = "licences".data := by decide
  have h3 : ("lisense".data ++ ['s'] : List Char) = "lisenses".data := by decide
  have h4 : ("lisence".data ++ ['s'] : List Char) = "lisences".data := by decide
  have hc1 : ("copy".data ++ "left".data : List Char) = "copyleft".data := by decide
  have hc2 : ("copy".data ++ "right".data : List Char) = "copyright".data := by decide
  have hc3 : ("copy".data ++ "ing".data : List Char) = "copying".data := by decide
  rw [Bool.eq_iff_iff]
  simp only [codeNameMatch, amendedNameMatch, licenMatch, copyMatch, licenStems, amendedWords,
    List.any_cons, List.any_nil, h1, h2, h3, h4, hc1, hc2, hc3,
    Bool.or_eq_true, Bool.or_false, beq_iff_eq]
  tauto

/-- Claim C2, as stated, is false: the source regex alternative li[cs]en[cs]es?
also accepts the mixed spelling lisense, which is not among the alternatives
enumerated by the claim. -/
theorem c2_counterexample :
    licenceRegexMatch "lisense" = true ∧ specCandidate "lisense" = false := by
  decide

/-- Claim C2 (amended): a base name is a licence-file candidate of the source
regex if and only if, case-insensitively, it is one of the words of the amended
list (the four li[cs]en[cs]e spellings with optional plural, legal, the three
copy words, unlicense, bsd, mit, apache) or matches the GPL-family pattern,
optionally followed by one of the extensions .txt, .md, .rst. -/
theorem c2_candidate_iff_amended (s : String) :
    licenceRegexMatch s = amendedCandidate s := by
  unfold licenceRegexMatch amendedCandidate withExt
  simp only [code_eq_amended]

/-! ## Theorems for claim C1 -/

/-- Walking a concatenation of sibling lists first walks the left part and
continues with the right part only when the left part completed. -/
theorem walkList_append (p : String) (xs ys : List FSNode) :
    walkList p (xs ++ ys) =
      match walkList p xs with
      | .done => walkList p ys
      | r => r := by
  induction xs with
  | nil => simp [walkList]
  | cons x xs ih =>
    cases x with
    | file n =>
      by_cases h : licenceRegexMatch n <;> simp [walkList, h, ih]
    | unreadableDir n msg =>
      by_cases h : licenceRegexMatch n <;> simp [walkList, h, ih]
    | dir n children =>
      by_cases h : licenceRegexMatch n
      · simp [walkList, h, ih]
      · simp only [List.cons_append, walkList, h, Bool.false_eq_true, if_false]
        cases hr : walkList (joinPath p n) children <;> simp [ih]

/-- A walk of a clean list of entries completes without finding anything. -/
theorem cleanList_walk :
    ∀ (p : String) (l : List FSNode), cleanList l = true → walkList p l = WalkOutcome.done
  | _, [], _ => by simp [walkList]
  | p, FSNode.file n :: rest, h => by
    simp only [cleanList, Bool.and_eq_true, Bool.not_eq_eq_eq_not, Bool.not_true] at h
    simp [walkList, h.1, cleanList_walk p rest h.2]
  | p, FSNode.unreadableDir n m :: rest, h => by
    simp [cleanList] at h
  | p, FSNode.dir n children :: rest, h => by
    simp only [cleanList, Bool.and_eq_true, Bool.not_eq_eq_eq_not, Bool.not_true] at h
    simp [walkList, h.1.1, cleanList_walk (joinPath p n) children h.1.2,
      cleanList_walk p rest h.2]

/-- Claim C1: in the walk of a dependency directory whose own name does not
match and whose earlier entries were walked without a match, the first entry
with a matching base name determines the outcome.  If that entry is a file,
findLicenceFile returns its path with no error, whatever follows it.  If it
is a directory, the walk does not descend into it and continues: the result
is the same as walking the tree without that directory, whatever its
children. -/
theorem c1_first_match (rname nm : String) (before after : List FSNode)
    (hroot : licenceRegexMatch rname = false)
    (hbefore : walkList rname before = WalkOutcome.done)
    (hnm : licenceRegexMatch nm = true) :
    findLicenceFile (FSNode.dir rname (before ++ FSNode.file nm :: after)) =
      Except.ok (joinPath rname nm) ∧
    ∀ children,
      findLicenceFile (FSNode.dir rname (before ++ FSNode.dir nm children :: after)) =
        findLicenceFile (FSNode.dir rname (before ++ after)) := by
  have hjoin : joinPath "" rname = rname := by simp [joinPath]
  constructor
  · unfold findLicenceFile
    simp only [walkList, hroot, Bool.false_eq_true, if_false, hjoin,
      walkList_append, hbefore]
    simp [walkList, hnm]
  · intro children
    unfold findLicenceFile
    simp only [walkList, hroot, Bool.false_eq_true, if_false, hjoin,
      walkList_append, hbefore]
    simp [walkList, hnm]

/-- Witness for claim C1 at a concrete tree: under pkg, the entries are
main.go, then a licence entry, then a readme.  As a file the licence entry
stops the walk with path pkg/LICENSE; as a directory it is skipped whatever
it contains. -/
theorem c1_first_match_witness :
    findLicenceFile (FSNode.dir "pkg"
        ([FSNode.file "main.go"] ++ FSNode.file "LICENSE" :: [FSNode.file "readme"])) =
      Except.ok (joinPath "pkg" "LICENSE") ∧
    ∀ children,
      findLicenceFile (FSNode.dir "pkg"
          ([FSNode.file "main.go"] ++ FSNode.dir "LICENSE" children :: [FSNode.file "readme"])) =
        findLicenceFile (FSNode.dir "pkg"
          ([FSNode.file "main.go"] ++ [FSNode.file "readme"])) :=
  c1_first_match "pkg" "LICENSE" [FSNode.file "main.go"] [FSNode.file "readme"]
    (by decide)
    (by simp [walkList, (by decide : licenceRegexMatch "main.go" = false)])
    (by decide)

/-! ## Theorems for claims C3 and C9 -/

/-- Mapping over the success value of an Except neither introduces nor removes
an error. -/
theorem except_map_error_iff {α β γ : Type} (f : α → β) (x : Except γ α) :
    (∃ m, x.map f = Except.error m) ↔ (∃ m, x = Except.error m) := by
  cases x <;> simp [Except.map]

/-- When findLicenceFile reports not-found on every record of a list,
detectList records that error, with an empty path, on every record, and
completes. -/
theorem detectList_allNotFound (fs : String → FSNode) :
    ∀ l : List LicenceInfo,
      (∀ d ∈ l, findLicenceFile (fs d.Dir) = Except.error LicErr.notFound) →
      detectList fs l =
        Except.ok (l.map fun d => { d with LicenceFile := "", Error := some LicErr.notFound }) := by
  intro l
  induction l with
  | nil => intro _; simp [detectList]
  | cons d ds ih =>
    intro h
    have hd := h d (List.mem_cons_self d ds)
    have hds := ih (fun x hx => h x (List.mem_cons_of_mem _ hx))
    simp [detectList, hd, hds, Except.map]

/-- detectList panics exactly when some record of its list has a
findLicenceFile error other than not-found. -/
theorem detectList_error_iff (fs : String → FSNode) :
    ∀ l : List LicenceInfo,
      (∃ msg, detectList fs l = Except.error msg) ↔
        ∃ d ∈ l, ∃ m, findLicenceFile (fs d.Dir) = Except.error (LicErr.other m) := by
  intro l
  induction l with
  | nil => simp [detectList]
  | cons d ds ih =>
    cases hf : findLicenceFile (fs d.Dir) with
    | ok p =>
      simp only [detectList, hf]
      rw [except_map_error_iff, ih]
      constructor
      · rintro ⟨x, hx, m, hm⟩
        exact ⟨x, List.mem_cons_of_mem _ hx, m, hm⟩
      · rintro ⟨x, hx, m, hm⟩
        rcases List.mem_cons.mp hx with rfl | hx
        · rw [hf] at hm
          exact absurd hm (by simp)
        · exact ⟨x, hx, m, hm⟩
    | error e =>
      cases e with
      | notFound =>
        simp only [detectList, hf, if_true, reduceIte]
        rw [except_map_error_iff, ih]
        constructor
        · rintro ⟨x, hx, m, hm⟩
          exact ⟨x, List.mem_cons_of_mem _ hx, m, hm⟩
        · rintro ⟨x, hx, m, hm⟩
          rcases List.mem_cons.mp hx with rfl | hx
          · rw [hf] at hm
            exact absurd hm (by simp)
          · exact ⟨x, hx, m, hm⟩
      | other m0 =>
        simp only [detectList, hf]
        constructor
        · intro _
          exact ⟨d, List.mem_cons_self d ds, m0, hf⟩
        · intro _
          refine ⟨"unexpected error while processing " ++ d.Path ++ ": " ++
            errMessage (LicErr.other m0), ?_⟩
          simp

/-- Claim C3: when every dependency directory walks cleanly to completion with
no matching entry, findLicenceFile reports the not-found error on each of them,
and detectLicences records that error on every record of both lists and
finishes the whole run without panicking. -/
theorem c3_not_found_reported (fs : String → FSNode) (deps : Dependencies)
    (h : ∀ d ∈ deps.Direct ++ deps.Indirect, cleanList [fs d.Dir] = true) :
    (∀ d ∈ deps.Direct ++ deps.Indirect,
        findLicenceFile (fs d.Dir) = Except.error LicErr.notFound) ∧
    detectLicences fs deps =
      Except.ok
        ⟨deps.Direct.map (fun d => { d with LicenceFile := "", Error := some LicErr.notFound }),
         deps.Indirect.map (fun d => { d with LicenceFile := "", Error := some LicErr.notFound })⟩ := by
  have hnf : ∀ d ∈ deps.Direct ++ deps.Indirect,
      findLicenceFile (fs d.Dir) = Except.error LicErr.notFound := by
    intro d hd
    unfold findLicenceFile
    rw [cleanList_walk "" _ (h d hd)]
  have h1 := detectList_allNotFound fs deps.Direct
    (fun d hd => hnf d (List.mem_append_left _ hd))
  have h2 := detectList_allNotFound fs deps.Indirect
    (fun d hd => hnf d (List.mem_append_right _ hd))
  exact ⟨hnf, by simp [detectLicences, h1, h2]⟩

/-- Witness for claim C3 at one concrete dependency whose directory holds only
main.go: the not-found error is recorded and the run completes. -/
theorem c3_not_found_reported_witness :
    (∀ d ∈ ([⟨⟨"example.com/a", "v1.0.0", false, none, false, "/mod/a"⟩, "", none⟩] :
          List LicenceInfo) ++ [],
        findLicenceFile ((fun _ => FSNode.dir "root" [FSNode.file "main.go"]) d.Dir) =
          Except.error LicErr.notFound) ∧
    detectLicences (fun _ => FSNode.dir "root" [FSNode.file "main.go"])
        ⟨[⟨⟨"example.com/a", "v1.0.0", false, none, false, "/mod/a"⟩, "", none⟩], []⟩ =
      Except.ok
        ⟨([⟨⟨"example.com/a", "v1.0.0", false, none, false, "/mod/a"⟩, "", none⟩] :
            List LicenceInfo).map
              (fun d => { d with LicenceFile := "", Error := some LicErr.notFound }),
         ([] : List LicenceInfo).map
              (fun d => { d with LicenceFile := "", Error := some LicErr.notFound })⟩ :=
  c3_not_found_reported (fun _ => FSNode.dir "root" [FSNode.file "main.go"])
    ⟨[⟨⟨"example.com/a", "v1.0.0", false, none, false, "/mod/a"⟩, "", none⟩], []⟩
    (by
      intro d _
      simp [cleanList, (by decide : licenceRegexMatch "root" = false),
        (by decide : licenceRegexMatch "main.go" = false)])

/-- Claim C9: detectLicences panics, aborting the run with no recorded output,
exactly when findLicenceFile fails with an error other than not-found on some
dependency of either list. -/
theorem c9_panic_iff (fs : String → FSNode) (deps : Dependencies) :
    (∃ msg, detectLicences fs deps = Except.error msg) ↔
      ∃ d ∈ deps.Direct ++ deps.Indirect, ∃ m,
        findLicenceFile (fs d.Dir) = Except.error (LicErr.other m) := by
  cases h1 : detectList fs deps.Direct with
  | error m =>
    simp only [detectLicences, h1]
    constructor
    · intro _
      obtain ⟨d, hd, mm, hm⟩ := (detectList_error_iff fs deps.Direct).mp ⟨m, h1⟩
      exact ⟨d, List.mem_append_left _ hd, mm, hm⟩
    · intro _
      exact ⟨m, rfl⟩
  | ok dir =>
    cases h2 : detectList fs deps.Indirect with
    | error m =>
      simp only [detectLicences, h1, h2]
      constructor
      · intro _
        obtain ⟨d, hd, mm, hm⟩ := (detectList_error_iff fs deps.Indirect).mp ⟨m, h2⟩
        exact ⟨d, List.mem_append_right _ hd, mm, hm⟩
      · intro _
        exact ⟨m, rfl⟩
    | ok ind =>
      simp only [detectLicences, h1, h2]
      constructor
      · rintro ⟨msg, hmsg⟩
        exact absurd hmsg (by simp)
      · rintro ⟨d, hd, m, hm⟩
        rcases List.mem_append.mp hd with hd | hd
        · obtain ⟨msg, hc⟩ := (detectList_error_iff fs deps.Direct).mpr ⟨d, hd, m, hm⟩
          rw [h1] at hc
          exact absurd hc (by simp)
        · obtain ⟨msg, hc⟩ := (detectList_error_iff fs deps.Indirect).mpr ⟨d, hd, m, hm⟩
          rw [h2] at hc
          exact absurd hc (by simp)

/-- Witness for claim C9: one dependency whose directory cannot be read makes
detectLicences panic. -/
theorem c9_panic_iff_witness :
    ∃ msg,
      detectLicences (fun _ => FSNode.unreadableDir "root" "boom")
          ⟨[⟨⟨"example.com/a", "v1.0.0", false, none, false, "/mod/a"⟩, "", none⟩], []⟩ =
        Except.error msg :=
  (c9_panic_iff (fun _ => FSNode.unreadableDir "root" "boom")
      ⟨[⟨⟨"example.com/a", "v1.0.0", false, none, false, "/mod/a"⟩, "", none⟩], []⟩).mpr
    ⟨⟨⟨"example.com/a", "v1.0.0", false, none, false, "/mod/a"⟩, "", none⟩, by simp, "boom",
      by
        simp [findLicenceFile, walkList,
          (by decide : licenceRegexMatch "root" = false)]⟩

/-! ## Theorems for claims C5, C6, C7 and C8 -/

/-- On a stream of successfully decoded modules the loop completes with a nil
error and appends, in stream order, the kept direct and indirect records to the
accumulator. -/
theorem parseLoop_ok (inc : Bool) :
    ∀ (ms : List Module) (acc : Dependencies),
      parseLoop inc acc (ms.map Except.ok) =
        Except.ok ⟨acc.Direct ++ (ms.filter keepDirect).map mkInfo,
                   acc.Indirect ++ (ms.filter (keepIndirect inc)).map mkInfo⟩ := by
  intro ms
  induction ms with
  | nil => intro acc; simp [parseLoop]
  | cons m rest ih =>
    intro acc
    cases hmain : m.Main with
    | true =>
      simp [parseLoop, List.filter_cons, keepDirect, keepIndirect, hmain, ih]
    | false =>
      by_cases hdir : m.Dir = ""
      · simp [parseLoop, List.filter_cons, keepDirect, keepIndirect, hmain, hdir, ih]
      · cases hind : m.Indirect with
        | false =>
          simp [parseLoop, List.filter_cons, keepDirect, keepIndirect, hmain, hdir, hind, ih]
        | true =>
          cases inc with
          | true =>
            simp [parseLoop, List.filter_cons, keepDirect, keepIndirect, hmain, hdir, hind, ih]
          | false =>
            simp [parseLoop, List.filter_cons, keepDirect, keepIndirect, hmain, hdir, hind, ih]

/-- A decode error stops the loop at once, whatever was accumulated and
whatever follows, and the returned error wraps the decode failure. -/
theorem parseLoop_error (inc : Bool) (e : String) :
    ∀ (ms : List Module) (acc : Dependencies) (rest : List (Except String Module)),
      parseLoop inc acc (ms.map Except.ok ++ Except.error e :: rest) =
        Except.error ("failed to parse dependencies: " ++ e) := by
  intro ms
  induction ms with
  | nil => intro acc rest; simp [parseLoop]
  | cons m ms ih =>
    intro acc rest
    simp only [List.map_cons, List.cons_append, parseLoop]
    split
    · split
      · split
        · exact ih _ _
        · exact ih _ _
      · exact ih _ _
    · exact ih _ _

/-- The loop returns a nil error exactly when every event of the stream is a
successfully decoded module, that is, when decoding runs to end of input. -/
theorem parseLoop_ok_iff_allOk (inc : Bool) :
    ∀ (evts : List (Except String Module)) (acc : Dependencies),
      (∃ d, parseLoop inc acc evts = Except.ok d) ↔ ∀ ev ∈ evts, ∃ m, ev = Except.ok m := by
  intro evts
  induction evts with
  | nil => intro acc; simp [parseLoop]
  | cons ev rest ih =>
    intro acc
    cases ev with
    | error e => simp [parseLoop]
    | ok m =>
      simp only [parseLoop]
      split
      · split
        · split
          · simp [ih]
          · simp [ih]
        · simp [ih]
      · simp [ih]

/-- A stream on which the loop succeeds consists of decoded modules only. -/
theorem parseLoop_ok_shape (inc : Bool) :
    ∀ (evts : List (Except String Module)) (acc : Dependencies) (d : Dependencies),
      parseLoop inc acc evts = Except.ok d → ∃ ms : List Module, evts = ms.map Except.ok := by
  intro evts
  induction evts with
  | nil => intro acc d _; exact ⟨[], rfl⟩
  | cons ev rest ih =>
    intro acc d h
    cases ev with
    | error e => simp [parseLoop] at h
    | ok m =>
      simp only [parseLoop] at h
      have : ∃ ms : List Module, rest = ms.map Except.ok := by
        split at h
        · split at h
          · split at h
            · exact ih _ _ h
            · exact ih _ _ h
          · exact ih _ _ h
        · exact ih _ _ h
      obtain ⟨ms, rfl⟩ := this
      exact ⟨m :: ms, rfl⟩

/-- Characterization of a successful parse: the returned lists are the
order-preserving filters of the decoded stream. -/
theorem parseDependencies_ok_eq (ms : List Module) (inc : Bool) :
    parseDependencies (ms.map Except.ok) inc =
      Except.ok ⟨(ms.filter keepDirect).map mkInfo,
                 (ms.filter (keepIndirect inc)).map mkInfo⟩ := by
  unfold parseDependencies
  rw [parseLoop_ok]
  simp

/-- Claim C8: on a fully decoded stream the two returned lists are the kept
records in exactly the order of the input stream — order-preserving filters,
never sorted (the sort statements after the loop are unreachable, as the loop
exits only through its return statements). -/
theorem c8_order_preserved (ms : List Module) (inc : Bool) :
    parseDependencies (ms.map Except.ok) inc =
      Except.ok ⟨(ms.filter keepDirect).map mkInfo,
                 (ms.filter (keepIndirect inc)).map mkInfo⟩ :=
  parseDependencies_ok_eq ms inc

/-- Witness for claim C8: two direct dependencies arriving in reverse
lexicographic order of their paths are returned in that same order. -/
theorem c8_order_preserved_witness :
    parseDependencies
        ([⟨"example.com/zeta", "v1.0.0", false, none, false, "/mod/zeta"⟩,
          ⟨"example.com/alpha", "v2.0.0", false, none, false, "/mod/alpha"⟩].map Except.ok) false =
      Except.ok
        ⟨[mkInfo ⟨"example.com/zeta", "v1.0.0", false, none, false, "/mod/zeta"⟩,
          mkInfo ⟨"example.com/alpha", "v2.0.0", false, none, false, "/mod/alpha"⟩], []⟩ :=
  c8_order_preserved
    [⟨"example.com/zeta", "v1.0.0", false, none, false, "/mod/zeta"⟩,
     ⟨"example.com/alpha", "v2.0.0", false, none, false, "/mod/alpha"⟩] false

/-- Claim C5: whenever parseDependencies succeeds, every returned record comes
from a decoded module of the stream that is not the main module and has a
non-empty Dir, and every decoded module that is the main module or has an
empty Dir appears in neither returned list. -/
theorem c5_filter_flags (evts : List (Except String Module)) (inc : Bool) (d : Dependencies)
    (h : parseDependencies evts inc = Except.ok d) :
    (∀ li ∈ d.Direct ++ d.Indirect,
        Except.ok li.toModule ∈ evts ∧ li.toModule.Main = false ∧ li.toModule.Dir ≠ "") ∧
    (∀ m : Module, Except.ok m ∈ evts → m.Main = true ∨ m.Dir = "" →
        ∀ li ∈ d.Direct ++ d.Indirect, li.toModule ≠ m) := by
  obtain ⟨ms, rfl⟩ := parseLoop_ok_shape inc evts ⟨[], []⟩ d h
  rw [parseDependencies_ok_eq] at h
  have hd : d = ⟨(ms.filter keepDirect).map mkInfo, (ms.filter (keepIndirect inc)).map mkInfo⟩ :=
    (Except.ok.injEq _ _).mp h.symm
  subst hd
  have hmem : ∀ li ∈ (ms.filter keepDirect).map mkInfo ++ (ms.filter (keepIndirect inc)).map mkInfo,
      ∃ m ∈ ms, li = mkInfo m ∧ (keepDirect m = true ∨ keepIndirect inc m = true) := by
    intro li hli
    rcases List.mem_append.mp hli with hli | hli
    · obtain ⟨m, hm, rfl⟩ := List.mem_map.mp hli
      obtain ⟨hm1, hm2⟩ := List.mem_filter.mp hm
      exact ⟨m, hm1, rfl, Or.inl hm2⟩
    · obtain ⟨m, hm, rfl⟩ := List.mem_map.mp hli
      obtain ⟨hm1, hm2⟩ := List.mem_filter.mp hm
      exact ⟨m, hm1, rfl, Or.inr hm2⟩
  constructor
  · intro li hli
    obtain ⟨m, hm, rfl, hkeep⟩ := hmem li hli
    have hflags : m.Main = false ∧ m.Dir ≠ "" := by
      rcases hkeep with hk | hk
      · simp only [keepDirect, Bool.and_eq_true, Bool.not_eq_eq_eq_not, Bool.not_true,
          bne_iff_ne] at hk
        exact ⟨hk.1.1, hk.1.2⟩
      · simp only [keepIndirect, Bool.and_eq_true, Bool.not_eq_eq_eq_not, Bool.not_true,
          bne_iff_ne] at hk
        exact ⟨hk.1.1.1, hk.1.1.2⟩
    exact ⟨List.mem_map.mpr ⟨m, hm, rfl⟩, hflags.1, hflags.2⟩
  · intro m _ hbad li hli hne
    obtain ⟨m', hm', rfl, hkeep⟩ := hmem li hli
    have : m' = m := hne
    subst this
    rcases hkeep with hk | hk
    · simp only [keepDirect, Bool.and_eq_true, Bool.not_eq_eq_eq_not, Bool.not_true,
        bne_iff_ne] at hk
      rcases hbad with hb | hb
      · rw [hk.1.1] at hb; cases hb
      · exact hk.1.2 hb
    · simp only [keepIndirect, Bool.and_eq_true, Bool.not_eq_eq_eq_not, Bool.not_true,
        bne_iff_ne] at hk
      rcases hbad with hb | hb
      · rw [hk.1.1.1] at hb; cases hb
      · exact hk.1.1.2 hb

/-- Witness for claim C5 on a stream of three records: the main module and the
record with an empty Dir are dropped, the ordinary dependency is kept. -/
theorem c5_filter_flags_witness :
    (∀ li ∈ (⟨[mkInfo ⟨"example.com/dep", "v1.0.0", false, none, false, "/mod/dep"⟩], []⟩ :
          Dependencies).Direct ++
        (⟨[mkInfo ⟨"example.com/dep", "v1.0.0", false, none, false, "/mod/dep"⟩], []⟩ :
          Dependencies).Indirect,
        Except.ok li.toModule ∈
            ([Except.ok ⟨"example.com/self", "", true, none, false, "/src/self"⟩,
              Except.ok ⟨"example.com/dep", "v1.0.0", false, none, false, "/mod/dep"⟩,
              Except.ok ⟨"example.com/nodir", "v3.0.0", false, none, false, ""⟩] :
              List (Except String Module)) ∧
          li.toModule.Main = false ∧ li.toModule.Dir ≠ "") ∧
    (∀ m : Module,
        Except.ok m ∈
            ([Except.ok ⟨"example.com/self", "", true, none, false, "/src/self"⟩,
              Except.ok ⟨"example.com/dep", "v1.0.0", false, none, false, "/mod/dep"⟩,
              Except.ok ⟨"example.com/nodir", "v3.0.0", false, none, false, ""⟩] :
              List (Except String Module)) →
          m.Main = true ∨ m.Dir = "" →
          ∀ li ∈ (⟨[mkInfo ⟨"example.com/dep", "v1.0.0", false, none, false, "/mod/dep"⟩], []⟩ :
                Dependencies).Direct ++
              (⟨[mkInfo ⟨"example.com/dep", "v1.0.0", false, none, false, "/mod/dep"⟩], []⟩ :
                Dependencies).Indirect,
            li.toModule ≠ m) :=
  c5_filter_flags
    [Except.ok ⟨"example.com/self", "", true, none, false, "/src/self"⟩,
     Except.ok ⟨"example.com/dep", "v1.0.0", false, none, false, "/mod/dep"⟩,
     Except.ok ⟨"example.com/nodir", "v3.0.0", false, none, false, ""⟩] false
    ⟨[mkInfo ⟨"example.com/dep", "v1.0.0", false, none, false, "/mod/dep"⟩], []⟩ rfl

/-- Claim C6: on a fully decoded stream, an indirect record lands in the
Indirect list when the include-indirect option is on and is dropped entirely
when it is off; the Direct list does not depend on the option and holds no
indirect record. -/
theorem c6_indirect_option (ms : List Module) :
    ∃ dT dF : Dependencies,
      parseDependencies (ms.map Except.ok) true = Except.ok dT ∧
      parseDependencies (ms.map Except.ok) false = Except.ok dF ∧
      dT.Direct = dF.Direct ∧
      dF.Indirect = [] ∧
      (∀ m ∈ ms, m.Main = false → m.Dir ≠ "" → m.Indirect = true → mkInfo m ∈ dT.Indirect) ∧
      (∀ li ∈ dT.Direct, li.toModule.Indirect = false) ∧
      (∀ li ∈ dT.Indirect, li.toModule.Indirect = true) := by
  refine ⟨⟨(ms.filter keepDirect).map mkInfo, (ms.filter (keepIndirect true)).map mkInfo⟩,
    ⟨(ms.filter keepDirect).map mkInfo, (ms.filter (keepIndirect false)).map mkInfo⟩,
    parseDependencies_ok_eq ms true, parseDependencies_ok_eq ms false, rfl, ?_, ?_, ?_, ?_⟩
  · have : ms.filter (keepIndirect false) = [] := by
      apply List.filter_eq_nil_iff.mpr
      intro m _
      simp [keepIndirect]
    simp [this]
  · intro m hm h1 h2 h3
    apply List.mem_map.mpr
    refine ⟨m, List.mem_filter.mpr ⟨hm, ?_⟩, rfl⟩
    simp [keepIndirect, h1, h2, h3]
  · intro li hli
    obtain ⟨m, hm, rfl⟩ := List.mem_map.mp hli
    have hk := (List.mem_filter.mp hm).2
    simp only [keepDirect, Bool.and_eq_true, Bool.not_eq_eq_eq_not, Bool.not_true] at hk
    exact hk.2
  · intro li hli
    obtain ⟨m, hm, rfl⟩ := List.mem_map.mp hli
    have hk := (List.mem_filter.mp hm).2
    simp only [keepIndirect, Bool.and_eq_true] at hk
    exact hk.1.2

/-- Witness for claim C6 at a stream with one direct and one indirect
dependency. -/
theorem c6_indirect_option_witness :
    ∃ dT dF : Dependencies,
      parseDependencies
          ([⟨"example.com/dir", "v1.0.0", false, none, false, "/mod/dir"⟩,
            ⟨"example.com/ind", "v2.0.0", false, none, true, "/mod/ind"⟩].map Except.ok) true =
        Except.ok dT ∧
      parseDependencies
          ([⟨"example.com/dir", "v1.0.0", false, none, false, "/mod/dir"⟩,
            ⟨"example.com/ind", "v2.0.0", false, none, true, "/mod/ind"⟩].map Except.ok) false =
        Except.ok dF ∧
      dT.Direct = dF.Direct ∧
      dF.Indirect = [] ∧
      (∀ m ∈ [⟨"example.com/dir", "v1.0.0", false, none, false, "/mod/dir"⟩,
              (⟨"example.com/ind", "v2.0.0", false, none, true, "/mod/ind"⟩ : Module)],
          m.Main = false → m.Dir ≠ "" → m.Indirect = true → mkInfo m ∈ dT.Indirect) ∧
      (∀ li ∈ dT.Direct, li.toModule.Indirect = false) ∧
      (∀ li ∈ dT.Indirect, li.toModule.Indirect = true) :=
  c6_indirect_option
    [⟨"example.com/dir", "v1.0.0", false, none, false, "/mod/dir"⟩,
     ⟨"example.com/ind", "v2.0.0", false, none, true, "/mod/ind"⟩]

/-- Claim C7: a decode failure stops parseDependencies at once — whatever was
already decoded and whatever follows — with an error wrapping the failure, and
the function returns a nil error exactly when the whole stream decodes to end
of input. -/
theorem c7_decode_error (inc : Bool) :
    (∀ (pre : List Module) (e : String) (rest : List (Except String Module)),
        parseDependencies (pre.map Except.ok ++ Except.error e :: rest) inc =
          Except.error ("failed to parse dependencies: " ++ e)) ∧
    (∀ evts : List (Except String Module),
        (∃ d, parseDependencies evts inc = Except.ok d) ↔
          ∀ ev ∈ evts, ∃ m, ev = Except.ok m) := by
  constructor
  · intro pre e rest
    exact parseLoop_error inc e pre ⟨[], []⟩ rest
  · intro evts
    exact parseLoop_ok_iff_allOk inc evts ⟨[], []⟩

/-- Witness for claim C7: a malformed second record stops the parse with the
wrapped error even though a further well-formed record follows. -/
theorem c7_decode_error_witness :
    parseDependencies
        ([⟨"example.com/a", "v1.0.0", false, none, false, "/mod/a"⟩].map Except.ok ++
          Except.error "invalid character" ::
            [Except.ok ⟨"example.com/b", "v2.0.0", false, none, false, "/mod/b"⟩]) true =
      Except.error ("failed to parse dependencies: " ++ "invalid character") :=
  (c7_decode_error true).1 [⟨"example.com/a", "v1.0.0", false, none, false, "/mod/a"⟩]
    "invalid character"
    [Except.ok ⟨"example.com/b", "v2.0.0", false, none, false, "/mod/b"⟩]

/-! ## Theorems for claim C4 -/

/-- The running best of the iteration is at least as confident as the start
value and as every candidate seen. -/
theorem bestAux_ge :
    ∀ (xs : List LicenceMatch) (b : LicenceMatch),
      b.confidence ≤ (bestAux b xs).confidence ∧
      ∀ x ∈ xs, x.confidence ≤ (bestAux b xs).confidence := by
  intro xs
  induction xs with
  | nil => intro b; exact ⟨le_refl _, by simp⟩
  | cons x xs ih =>
    intro b
    by_cases h : b.confidence < x.confidence
    · have := ih x
      constructor
      · calc b.confidence ≤ x.confidence := le_of_lt h
          _ ≤ (bestAux x xs).confidence := this.1
          _ = (bestAux b (x :: xs)).confidence := by simp [bestAux, h]
      · intro y hy
        rcases List.mem_cons.mp hy with rfl | hy
        · calc y.confidence ≤ (bestAux y xs).confidence := (ih y).1
            _ = (bestAux b (y :: xs)).confidence := by simp [bestAux, h]
        · calc y.confidence ≤ (bestAux x xs).confidence := (ih x).2 y hy
            _ = (bestAux b (x :: xs)).confidence := by simp [bestAux, h]
    · have := ih b
      constructor
      · calc b.confidence ≤ (bestAux b xs).confidence := this.1
          _ = (bestAux b (x :: xs)).confidence := by simp [bestAux, h]
      · intro y hy
        rcases List.mem_cons.mp hy with rfl | hy
        · calc y.confidence ≤ b.confidence := le_of_not_lt h
            _ ≤ (bestAux b xs).confidence := this.1
            _ = (bestAux b (y :: xs)).confidence := by simp [bestAux, h]
        · calc y.confidence ≤ (bestAux b xs).confidence := this.2 y hy
            _ = (bestAux b (x :: xs)).confidence := by simp [bestAux, h]

/-- The iteration either keeps its start value, or returns a later candidate
that strictly beats the start value and every candidate before it. -/
theorem bestAux_first :
    ∀ (xs : List LicenceMatch) (b : LicenceMatch),
      bestAux b xs = b ∨
      ∃ pre r post, xs = pre ++ r :: post ∧ bestAux b xs = r ∧
        b.confidence < r.confidence ∧ ∀ x ∈ pre, x.confidence < r.confidence := by
  intro xs
  induction xs with
  | nil => intro b; exact Or.inl rfl
  | cons x xs ih =>
    intro b
    by_cases h : b.confidence < x.confidence
    · have hstep : bestAux b (x :: xs) = bestAux x xs := by simp [bestAux, h]
      rcases ih x with h1 | ⟨pre, r, post, heq, hres, hlt, hpre⟩
      · right
        exact ⟨[], x, xs, rfl, by rw [hstep, h1], h, by simp⟩
      · right
        refine ⟨x :: pre, r, post, by simp [heq], by rw [hstep, hres], lt_trans h hlt, ?_⟩
        intro y hy
        rcases List.mem_cons.mp hy with rfl | hy
        · exact hlt
        · exact hpre y hy
    · have hstep : bestAux b (x :: xs) = bestAux b xs := by simp [bestAux, h]
      rcases ih b with h1 | ⟨pre, r, post, heq, hres, hlt, hpre⟩
      · exact Or.inl (by rw [hstep, h1])
      · right
        refine ⟨x :: pre, r, post, by simp [heq], by rw [hstep, hres], hlt, ?_⟩
        intro y hy
        rcases List.mem_cons.mp hy with rfl | hy
        · exact lt_of_le_of_lt (le_of_not_lt h) hlt
        · exact hpre y hy

/-- Claim C4: on a non-empty candidate list the selection returns the first
candidate of strictly highest confidence — every earlier candidate is strictly
less confident, every candidate is at most as confident — and associates with
its identifier the first file of its match set, a file that belongs to that
set whenever the set is non-empty. -/
theorem c4_best_selection (ms : List LicenceMatch) (h : ms ≠ []) :
    ∃ r pre post,
      bestLicence ms = some r ∧
      ms = pre ++ r :: post ∧
      (∀ x ∈ pre, x.confidence < r.confidence) ∧
      (∀ x ∈ ms, x.confidence ≤ r.confidence) ∧
      bestLicenceFile ms = some (r.ident, r.files.head?) ∧
      (∀ f, r.files.head? = some f → f ∈ r.files) := by
  cases ms with
  | nil => exact absurd rfl h
  | cons m rest =>
    rcases bestAux_first rest m with h1 | ⟨pre, r, post, heq, hres, hlt, hpre⟩
    · have hb : bestLicence (m :: rest) = some m := by simp [bestLicence, h1]
      refine ⟨m, [], rest, hb, by simp, by simp, ?_, ?_, ?_⟩
      · intro x hx
        rcases List.mem_cons.mp hx with rfl | hx
        · exact le_refl _
        · have := (bestAux_ge rest m).2 x hx
          rw [h1] at this
          exact this
      · simp [bestLicenceFile, hb]
      · intro f hf
        exact List.mem_of_mem_head? hf
    · have hb : bestLicence (m :: rest) = some r := by simp [bestLicence, hres]
      refine ⟨r, m :: pre, post, hb, by simp [heq], ?_, ?_, ?_, ?_⟩
      · intro x hx
        rcases List.mem_cons.mp hx with rfl | hx
        · exact hlt
        · exact hpre x hx
      · intro x hx
        rcases List.mem_cons.mp hx with rfl | hx
        · exact le_of_lt hlt
        · have := (bestAux_ge rest m).2 x hx
          rw [hres] at this
          exact this
      · simp [bestLicenceFile, hb]
      · intro f hf
        exact List.mem_of_mem_head? hf

/-- Witness for claim C4 on three candidates with a tie at the top: the first
of the two equally confident candidates is selected, with its first file. -/
theorem c4_best_selection_witness :
    ∃ r pre post,
      bestLicence [⟨"MIT", 9, ["LICENSE"]⟩, ⟨"Apache-2.0", 9, ["NOTICE.txt"]⟩,
          ⟨"BSD-3-Clause", 7, []⟩] = some r ∧
      ([⟨"MIT", 9, ["LICENSE"]⟩, ⟨"Apache-2.0", 9, ["NOTICE.txt"]⟩,
          ⟨"BSD-3-Clause", 7, []⟩] : List LicenceMatch) = pre ++ r :: post ∧
      (∀ x ∈ pre, x.confidence < r.confidence) ∧
      (∀ x ∈ ([⟨"MIT", 9, ["LICENSE"]⟩, ⟨"Apache-2.0", 9, ["NOTICE.txt"]⟩,
          ⟨"BSD-3-Clause", 7, []⟩] : List LicenceMatch), x.confidence ≤ r.confidence) ∧
      bestLicenceFile [⟨"MIT", 9, ["LICENSE"]⟩, ⟨"Apache-2.0", 9, ["NOTICE.txt"]⟩,
          ⟨"BSD-3-Clause", 7, []⟩] = some (r.ident, r.files.head?) ∧
      (∀ f, r.files.head? = some f → f ∈ r.files) :=
  c4_best_selection
    [⟨"MIT", 9, ["LICENSE"]⟩, ⟨"Apache-2.0", 9, ["NOTICE.txt"]⟩, ⟨"BSD-3-Clause", 7, []⟩]
    (by simp)

/-! ## Theorems for claim C10 -/

/-- Claim C10: with a recorded detection error, LicenceText returns exactly the
message of that error — failed to detect licence for the not-found sentinel —
touching no file (the result is the same for every reader).  With no recorded
error it returns the header naming the licence file, every occurrence of the
module cache path replaced by the placeholder, followed by the file contents,
and panics when the file cannot be opened or read. -/
theorem c10_licence_text (reader : String → FileReadResult) (cache : String) (li : LicenceInfo) :
    (∀ e, li.Error = some e →
        ∀ reader2 : String → FileReadResult,
          LicenceText reader2 cache li = Except.ok (errMessage e)) ∧
    errMessage LicErr.notFound = "failed to detect licence" ∧
    (li.Error = none →
        (∀ text, reader li.LicenceFile = FileReadResult.content text →
            LicenceText reader cache li =
              Except.ok ("Contents of probable licence file " ++
                li.LicenceFile.replace cache "$GOMODCACHE" ++ ":\n\n" ++ text)) ∧
        ((reader li.LicenceFile = FileReadResult.openFail ∨
            reader li.LicenceFile = FileReadResult.readFail) →
          ∃ m, LicenceText reader cache li = Except.error m)) := by
  refine ⟨?_, rfl, ?_⟩
  · intro e he reader2
    simp [LicenceText, he]
  · intro he
    constructor
    · intro text ht
      simp [LicenceText, he, ht]
    · rintro (ht | ht)
      · exact ⟨"failed to open licence file " ++ li.LicenceFile, by simp [LicenceText, he, ht]⟩
      · exact ⟨"failed to read licence file " ++ li.LicenceFile, by simp [LicenceText, he, ht]⟩

/-- Witness for claim C10 on a record with no error: the header carries the
cache-replaced path and the file contents follow. -/
theorem c10_licence_text_witness :
    LicenceText (fun _ => FileReadResult.content "MIT LICENCE TEXT") "/go/pkg/mod"
        ⟨⟨"example.com/a", "v1.0.0", false, none, false, "/go/pkg/mod/a"⟩,
          "/go/pkg/mod/a/LICENSE", none⟩ =
      Except.ok ("Contents of probable licence file " ++
        String.replace "/go/pkg/mod/a/LICENSE" "/go/pkg/mod" "$GOMODCACHE" ++ ":\n\n" ++
        "MIT LICENCE TEXT") :=
  ((c10_licence_text (fun _ => FileReadResult.content "MIT LICENCE TEXT") "/go/pkg/mod"
      ⟨⟨"example.com/a", "v1.0.0", false, none, false, "/go/pkg/mod/a"⟩,
        "/go/pkg/mod/a/LICENSE", none⟩).2.2 rfl).1 "MIT LICENCE TEXT" rfl

end LicenceDetector
